import Mathlib

/-!
Shallow embedding of the PublicAI airdrop contract (`src/lib.rs`) together
with a spec-modelled Merkle eligibility verifier, and proofs of the claims
about them.

The contract (`AirdropContract`) keeps an owner, a token-contract account
and a map from accounts to claimable amounts.  Entry points:

* `new`            — constructor (lib.rs 22-29)
* `add_airdrops`   — owner-only batch insert, skipping existing entries
                     (lib.rs 34-65)
* `update_airdrop` — owner-only update of an existing entry (lib.rs 70-91)
* `claim_airdrop`  — caller claims its amount: entry removed, a single
                     `ft_transfer` promise is issued, no callback is
                     chained (lib.rs 94-122)
* `check_airdrop`, `get_owner` — read-only accessors (lib.rs 126-133)

A panicking entry point is modelled as `Except PanicMsg _`; on the NEAR
runtime a panic reverts every state change of the call, which the
embedding reflects by returning no state on the error path (every panic in
the source also occurs before any mutation).  A successful call returns an
`ExecResult`: the new contract state, the external calls issued (in
order), and the continuation methods chained onto them with `.then`
(`claim_airdrop` chains none: the promise is fire-and-forget).
-/

namespace Airdrop

/-- NEAR account identifiers, modelled as plain strings. -/
abbrev AccountId := String

/-- u128 token amounts; the contract performs no arithmetic on them, so the
2^128 bound is irrelevant to every claim and `Nat` is a faithful model. -/
abbrev Balance := Nat

/-- Key-value store backing `UnorderedMap<AccountId, u128>`, as an
association list.  Only `mapGet` / `mapInsert` / `mapRemove` are used by
the contract, so any implementation of the map laws is a faithful model. -/
abbrev AirMap := List (AccountId × Balance)

/-- `UnorderedMap::get`. -/
def mapGet (m : AirMap) (k : AccountId) : Option Balance :=
  match m with
  | [] => none
  | p :: rest => if p.1 = k then some p.2 else mapGet rest k

/-- `UnorderedMap::remove` (drops every binding of the key). -/
def mapRemove (m : AirMap) (k : AccountId) : AirMap :=
  match m with
  | [] => []
  | p :: rest => if p.1 = k then mapRemove rest k else p :: mapRemove rest k

/-- `UnorderedMap::insert` (the new binding replaces any old one). -/
def mapInsert (m : AirMap) (k : AccountId) (v : Balance) : AirMap :=
  (k, v) :: mapRemove m k

theorem mapGet_remove_self (m : AirMap) (k : AccountId) :
    mapGet (mapRemove m k) k = none := by
  induction m with
  | nil => rfl
  | cons p rest ih =>
    by_cases h : p.1 = k <;> simp [mapRemove, mapGet, h, ih]

theorem mapGet_remove_ne (m : AirMap) {k k' : AccountId} (h : k' ≠ k) :
    mapGet (mapRemove m k) k' = mapGet m k' := by
  have hkk : k ≠ k' := fun hk => h hk.symm
  induction m with
  | nil => rfl
  | cons p rest ih =>
    by_cases hp : p.1 = k
    · simp [mapRemove, mapGet, hp, hkk, ih]
    · simp [mapRemove, mapGet, hp, ih]

theorem mapGet_insert_self (m : AirMap) (k : AccountId) (v : Balance) :
    mapGet (mapInsert m k v) k = some v := by
  simp [mapInsert, mapGet]

theorem mapGet_insert_ne (m : AirMap) {k k' : AccountId} (v : Balance)
    (h : k' ≠ k) : mapGet (mapInsert m k v) k' = mapGet m k' := by
  have : k ≠ k' := fun hk => h hk.symm
  simp [mapInsert, mapGet, this, mapGet_remove_ne m h]

/-- Contract state (lib.rs 9-16). -/
structure AirdropContract where
  owner_id : AccountId
  token_contract : AccountId
  airdrops : AirMap
deriving DecidableEq, Repr

/-- The part of the NEAR execution context the contract can observe:
`env::predecessor_account_id()` and `env::attached_deposit()` (the latter
is never read by this contract). -/
structure Ctx where
  predecessor_account_id : AccountId
  attached_deposit : Nat
deriving DecidableEq, Repr

/-- The panic messages of the contract, one constructor per `assert!` /
`assert_eq!` in the source. -/
inductive PanicMsg where
  /-- "Only the owner can add airdrops." (lib.rs 36-40) -/
  | onlyOwnerAdd
  /-- "Recipients and amounts length mismatch." (lib.rs 43-47) -/
  | lengthMismatch
  /-- "Only the owner can update airdrops." (lib.rs 72-76) -/
  | onlyOwnerUpdate
  /-- "Account @{} is not in the airdrop list." (lib.rs 79-83) -/
  | notInList
  /-- "You have no tokens to claim." (lib.rs 99) -/
  | nothingToClaim
deriving DecidableEq, Repr

/-- One external (cross-contract) function call issued via
`Promise::new(..).function_call(..)`. -/
structure ExtCall where
  contract : AccountId
  method : String
  receiver_id : AccountId
  amount : Balance
  deposit : Nat
  gas : Nat
deriving DecidableEq, Repr

/-- Outcome of a successful entry-point call: the persisted state, the
external calls issued (in order), and the continuation methods chained
onto those promises with `.then` (empty when no callback is registered). -/
structure ExecResult where
  state : AirdropContract
  calls : List ExtCall
  callbacks : List String
deriving DecidableEq, Repr

/-- `AirdropContract::new` (lib.rs 22-29). -/
def new (owner_id token_contract : AccountId) : AirdropContract :=
  { owner_id := owner_id, token_contract := token_contract, airdrops := [] }

/-- The loop body of `add_airdrops` (lib.rs 50-64): existing recipients are
skipped, new ones inserted, in input order. -/
def addLoop (m : AirMap) (pairs : List (AccountId × Balance)) : AirMap :=
  match pairs with
  | [] => m
  | (r, a) :: rest =>
    if (mapGet m r).isSome then addLoop m rest
    else addLoop (mapInsert m r a) rest

/-- `AirdropContract::add_airdrops` (lib.rs 34-65).  The source indexes
`amounts[i]` while iterating `recipients` after asserting equal lengths,
which is the zip of the two lists. -/
def add_airdrops (self : AirdropContract) (ctx : Ctx)
    (recipients : List AccountId) (amounts : List Balance) :
    Except PanicMsg ExecResult :=
  if self.owner_id = ctx.predecessor_account_id then
    if recipients.length = amounts.length then
      .ok { state := { self with airdrops := addLoop self.airdrops (recipients.zip amounts) },
            calls := [], callbacks := [] }
    else .error .lengthMismatch
  else .error .onlyOwnerAdd

/-- `AirdropContract::update_airdrop` (lib.rs 70-91). -/
def update_airdrop (self : AirdropContract) (ctx : Ctx)
    (recipient : AccountId) (amount : Balance) : Except PanicMsg ExecResult :=
  if self.owner_id = ctx.predecessor_account_id then
    if (mapGet self.airdrops recipient).isSome then
      .ok { state := { self with airdrops := mapInsert self.airdrops recipient amount },
            calls := [], callbacks := [] }
    else .error .notInList
  else .error .onlyOwnerUpdate

/-- `AirdropContract::claim_airdrop` (lib.rs 94-122): look the caller up
(`unwrap_or(0)`), panic if the amount is zero, otherwise remove the entry
and issue a single `ft_transfer` promise on the token contract with
1 yoctoNEAR and 50 Tgas attached.  No `.then` callback is chained. -/
def claim_airdrop (self : AirdropContract) (ctx : Ctx) :
    Except PanicMsg ExecResult :=
  let account_id := ctx.predecessor_account_id
  let amount := (mapGet self.airdrops account_id).getD 0
  if amount > 0 then
    .ok { state := { self with airdrops := mapRemove self.airdrops account_id },
          calls := [{ contract := self.token_contract, method := "ft_transfer",
                      receiver_id := account_id, amount := amount,
                      deposit := 1, gas := 50000000000000 }],
          callbacks := [] }
  else .error .nothingToClaim

/-- `AirdropContract::check_airdrop` (lib.rs 126-128).  A `&self` method:
the runtime persists the unchanged state and no promise is issued. -/
def check_airdrop (self : AirdropContract) (ctx : Ctx)
    (account_id : AccountId) : Balance × ExecResult :=
  ((mapGet self.airdrops account_id).getD 0,
   { state := self, calls := [], callbacks := [] })

/-- `AirdropContract::get_owner` (lib.rs 131-133). -/
def get_owner (self : AirdropContract) (ctx : Ctx) :
    AccountId × ExecResult :=
  (self.owner_id, { state := self, calls := [], callbacks := [] })

/-- The state persisted after an entry-point call: a panic reverts to the
pre-call state. -/
def finalState (s : AirdropContract) : Except PanicMsg ExecResult → AirdropContract
  | .ok r => r.state
  | .error _ => s

/-- The external calls actually issued by an entry-point call: a panic
cancels the receipt, so a failed call issues none. -/
def extCalls : Except PanicMsg ExecResult → List ExtCall
  | .ok r => r.calls
  | .error _ => []

/-- Run a sequence of `claim_airdrop` invocations, threading the state
(reverted on panic) and counting the successful ones. -/
def runClaims (s : AirdropContract) : List Ctx → AirdropContract × Nat
  | [] => (s, 0)
  | c :: rest =>
    match claim_airdrop s c with
    | .ok r => let p := runClaims r.state rest; (p.1, p.2 + 1)
    | .error _ => runClaims s rest

/-- Eliminating a successful `claim_airdrop`: the caller's stored amount
was positive and the result is exactly the removal plus one transfer. -/
theorem claim_ok_elim {s : AirdropContract} {ctx : Ctx} {r : ExecResult}
    (h : claim_airdrop s ctx = .ok r) :
    (mapGet s.airdrops ctx.predecessor_account_id).getD 0 > 0 ∧
    r = { state := { s with airdrops := mapRemove s.airdrops ctx.predecessor_account_id },
          calls := [{ contract := s.token_contract, method := "ft_transfer",
                      receiver_id := ctx.predecessor_account_id,
                      amount := (mapGet s.airdrops ctx.predecessor_account_id).getD 0,
                      deposit := 1, gas := 50000000000000 }],
          callbacks := [] } := by
  simp only [claim_airdrop] at h
  split at h
  · rename_i hpos
    cases h
    exact ⟨hpos, rfl⟩
  · cases h

/-- A caller whose looked-up amount is zero makes `claim_airdrop` panic. -/
theorem claim_airdrop_zero {s : AirdropContract} {ctx : Ctx}
    (h : (mapGet s.airdrops ctx.predecessor_account_id).getD 0 = 0) :
    claim_airdrop s ctx = .error .nothingToClaim := by
  simp [claim_airdrop, h]

/-- After a successful claim the caller's entry is gone. -/
theorem claim_ok_removed {s : AirdropContract} {ctx : Ctx} {r : ExecResult}
    (h : claim_airdrop s ctx = .ok r) :
    mapGet r.state.airdrops ctx.predecessor_account_id = none := by
  obtain ⟨-, hr⟩ := claim_ok_elim h
  rw [hr]
  exact mapGet_remove_self ..

/-- Claims by an account with no entry leave the state alone and never
succeed. -/
theorem runClaims_none {a : AccountId} :
    ∀ (ctxs : List Ctx) (s : AirdropContract), mapGet s.airdrops a = none →
      (∀ c ∈ ctxs, c.predecessor_account_id = a) → runClaims s ctxs = (s, 0) := by
  intro ctxs
  induction ctxs with
  | nil => intro s _ _; rfl
  | cons c rest ih =>
    intro s hnone hall
    have hc : c.predecessor_account_id = a := hall c (List.mem_cons_self ..)
    have herr : claim_airdrop s c = .error .nothingToClaim := by
      apply claim_airdrop_zero
      rw [hc, hnone]
      rfl
    simp only [runClaims, herr]
    exact ih s hnone fun c' h' => hall c' (List.mem_cons_of_mem _ h')

/-- Across any sequence of claims by one account, at most one succeeds. -/
theorem runClaims_le_one {a : AccountId} :
    ∀ (ctxs : List Ctx) (s : AirdropContract),
      (∀ c ∈ ctxs, c.predecessor_account_id = a) → (runClaims s ctxs).2 ≤ 1 := by
  intro ctxs
  induction ctxs with
  | nil => intro s _; exact Nat.zero_le 1
  | cons c rest ih =>
    intro s hall
    have hc : c.predecessor_account_id = a := hall c (List.mem_cons_self ..)
    have htail : ∀ c' ∈ rest, c'.predecessor_account_id = a :=
      fun c' h' => hall c' (List.mem_cons_of_mem _ h')
    cases hok : claim_airdrop s c with
    | error e =>
      simp only [runClaims, hok]
      exact ih s htail
    | ok r =>
      have hnone : mapGet r.state.airdrops a = none := hc ▸ claim_ok_removed hok
      have hrest := runClaims_none rest r.state hnone htail
      simp [runClaims, hok, hrest]

/-- C1: at most one claim by any account ever succeeds.  After a
successful `claim_airdrop` by the caller of `ctx`, every subsequent claim
by the same account fails with the nothing-to-claim panic, issues no
external call and leaves the state unchanged; and across any sequence of
claim invocations by that account, at most one succeeds (at most one
transfer is issued). -/
theorem claim_at_most_once (s : AirdropContract) (ctx : Ctx) (r : ExecResult)
    (hok : claim_airdrop s ctx = .ok r) :
    (∀ ctx' : Ctx, ctx'.predecessor_account_id = ctx.predecessor_account_id →
      claim_airdrop r.state ctx' = .error .nothingToClaim ∧
      extCalls (claim_airdrop r.state ctx') = [] ∧
      finalState r.state (claim_airdrop r.state ctx') = r.state) ∧
    (∀ ctxs : List Ctx,
      (∀ c ∈ ctxs, c.predecessor_account_id = ctx.predecessor_account_id) →
      (runClaims s ctxs).2 ≤ 1) := by
  constructor
  · intro ctx' hpred
    have herr : claim_airdrop r.state ctx' = .error .nothingToClaim := by
      apply claim_airdrop_zero
      rw [hpred, claim_ok_removed hok]
      rfl
    exact ⟨herr, by rw [herr]; rfl, by rw [herr]; rfl⟩
  · intro ctxs hall
    exact runClaims_le_one ctxs s hall

/-- C1 witness: with one entry for user1, the first claim succeeds, a
retry fails, and three consecutive claim attempts produce at most one
success. -/
theorem claim_at_most_once_witness :
    claim_airdrop ⟨"owner.testnet", "token.testnet", [("user1.testnet", 100)]⟩
        ⟨"user1.testnet", 0⟩ =
      .ok ⟨⟨"owner.testnet", "token.testnet", []⟩,
           [⟨"token.testnet", "ft_transfer", "user1.testnet", 100, 1, 50000000000000⟩],
           []⟩ ∧
    claim_airdrop ⟨"owner.testnet", "token.testnet", []⟩ ⟨"user1.testnet", 5⟩ =
      .error .nothingToClaim ∧
    (runClaims ⟨"owner.testnet", "token.testnet", [("user1.testnet", 100)]⟩
      [⟨"user1.testnet", 0⟩, ⟨"user1.testnet", 0⟩, ⟨"user1.testnet", 0⟩]).2 ≤ 1 := by
  have hok : claim_airdrop
      ⟨"owner.testnet", "token.testnet", [("user1.testnet", 100)]⟩ ⟨"user1.testnet", 0⟩ =
      .ok ⟨⟨"owner.testnet", "token.testnet", []⟩,
           [⟨"token.testnet", "ft_transfer", "user1.testnet", 100, 1, 50000000000000⟩],
           []⟩ := by rfl
  refine ⟨hok, ?_, ?_⟩
  · exact ((claim_at_most_once _ _ _ hok).1 ⟨"user1.testnet", 5⟩ rfl).1
  · exact (claim_at_most_once _ _ _ hok).2 _ (by decide)

/-- C3: when a claim is rejected at its precondition check (the caller's
looked-up amount is zero, i.e. no entry or an exhausted one), the call
fails with the classified nothing-to-claim panic, the persisted state is
exactly the pre-call state, and no external call is issued. -/
theorem claim_reject_no_mutation (s : AirdropContract) (ctx : Ctx)
    (h : (mapGet s.airdrops ctx.predecessor_account_id).getD 0 = 0) :
    claim_airdrop s ctx = .error .nothingToClaim ∧
    finalState s (claim_airdrop s ctx) = s ∧
    extCalls (claim_airdrop s ctx) = [] := by
  have herr := claim_airdrop_zero h
  exact ⟨herr, by rw [herr]; rfl, by rw [herr]; rfl⟩

/-- C3 witness: a caller absent from the airdrop map is rejected without
mutation. -/
theorem claim_reject_no_mutation_witness :
    claim_airdrop ⟨"owner.testnet", "token.testnet", [("user1.testnet", 100)]⟩
        ⟨"user9.testnet", 3⟩ = .error .nothingToClaim ∧
    finalState ⟨"owner.testnet", "token.testnet", [("user1.testnet", 100)]⟩
        (claim_airdrop ⟨"owner.testnet", "token.testnet", [("user1.testnet", 100)]⟩
          ⟨"user9.testnet", 3⟩) =
      ⟨"owner.testnet", "token.testnet", [("user1.testnet", 100)]⟩ ∧
    extCalls (claim_airdrop ⟨"owner.testnet", "token.testnet", [("user1.testnet", 100)]⟩
        ⟨"user9.testnet", 3⟩) = [] :=
  claim_reject_no_mutation
    ⟨"owner.testnet", "token.testnet", [("user1.testnet", 100)]⟩
    ⟨"user9.testnet", 3⟩ (by decide)

/-- C2 counterexample: a successful `claim_airdrop` chains no callback
onto its `ft_transfer` promise (`callbacks = []`), so there is no
compensating action: when the external transfer fails, the persisted
contract state is still the post-claim state with the claimant removed,
and the retried claim by the same account fails instead of succeeding. -/
theorem claim_rollback_counterexample :
    claim_airdrop ⟨"owner.testnet", "token.testnet", [("user2.testnet", 250)]⟩
        ⟨"user2.testnet", 1⟩ =
      .ok ⟨⟨"owner.testnet", "token.testnet", []⟩,
           [⟨"token.testnet", "ft_transfer", "user2.testnet", 250, 1, 50000000000000⟩],
           []⟩ ∧
    claim_airdrop ⟨"owner.testnet", "token.testnet", []⟩ ⟨"user2.testnet", 1⟩ =
      .error .nothingToClaim := ⟨rfl, rfl⟩

/-- C2 (amended): a successful claim registers no compensating
continuation at all (`callbacks = []`), and the claimant's entry is gone
from the persisted state; hence if the external payout call later fails,
the account stays removed and a subsequent claim by the same account
fails with the nothing-to-claim panic — the account is permanently unable
to claim, not restored. -/
theorem claim_no_rollback (s : AirdropContract) (ctx : Ctx) (r : ExecResult)
    (hok : claim_airdrop s ctx = .ok r) :
    r.callbacks = [] ∧
    mapGet r.state.airdrops ctx.predecessor_account_id = none ∧
    ∀ ctx' : Ctx, ctx'.predecessor_account_id = ctx.predecessor_account_id →
      claim_airdrop r.state ctx' = .error .nothingToClaim := by
  obtain ⟨-, hr⟩ := claim_ok_elim hok
  refine ⟨by rw [hr], claim_ok_removed hok, ?_⟩
  intro ctx' h
  apply claim_airdrop_zero
  rw [h, claim_ok_removed hok]
  rfl

/-- C2 witness: concrete instance of `claim_no_rollback`. -/
theorem claim_no_rollback_witness :
    (⟨⟨"owner.testnet", "token.testnet", []⟩,
      [⟨"token.testnet", "ft_transfer", "user8.testnet", 40, 1, 50000000000000⟩],
      []⟩ : ExecResult).callbacks = [] ∧
    claim_airdrop (⟨⟨"owner.testnet", "token.testnet", []⟩,
      [⟨"token.testnet", "ft_transfer", "user8.testnet", 40, 1, 50000000000000⟩],
      []⟩ : ExecResult).state ⟨"user8.testnet", 1⟩ = .error .nothingToClaim := by
  have H := claim_no_rollback
    ⟨"owner.testnet", "token.testnet", [("user8.testnet", 40)]⟩ ⟨"user8.testnet", 1⟩
    ⟨⟨"owner.testnet", "token.testnet", []⟩,
     [⟨"token.testnet", "ft_transfer", "user8.testnet", 40, 1, 50000000000000⟩],
     []⟩ rfl
  exact ⟨H.1, H.2.2 ⟨"user8.testnet", 1⟩ rfl⟩

/-- C5 counterexample: on a successful claim the sequence of external
calls is exactly `["ft_transfer"]` — the token transfer is the first and
only external call, with no preceding register-recipient call, contrary
to the claim that the transfer is never the first external call of the
payout sequence. -/
theorem claim_transfer_first_counterexample :
    claim_airdrop ⟨"owner.testnet", "token.testnet", [("user3.testnet", 7)]⟩
        ⟨"user3.testnet", 0⟩ =
      .ok ⟨⟨"owner.testnet", "token.testnet", []⟩,
           [⟨"token.testnet", "ft_transfer", "user3.testnet", 7, 1, 50000000000000⟩],
           []⟩ ∧
    (extCalls (claim_airdrop ⟨"owner.testnet", "token.testnet", [("user3.testnet", 7)]⟩
        ⟨"user3.testnet", 0⟩)).map ExtCall.method = ["ft_transfer"] := ⟨rfl, rfl⟩

/-- C5 (amended): on a successful claim the contract issues exactly one
external call — `ft_transfer` on the token contract for the caller's
stored amount, immediately and unconditionally; no register-recipient
call is ever issued and nothing is gated on a registration response. -/
theorem claim_single_transfer (s : AirdropContract) (ctx : Ctx) (r : ExecResult)
    (hok : claim_airdrop s ctx = .ok r) :
    r.calls = [{ contract := s.token_contract, method := "ft_transfer",
                 receiver_id := ctx.predecessor_account_id,
                 amount := (mapGet s.airdrops ctx.predecessor_account_id).getD 0,
                 deposit := 1, gas := 50000000000000 }] ∧
    r.callbacks = [] := by
  obtain ⟨-, hr⟩ := claim_ok_elim hok
  exact ⟨by rw [hr], by rw [hr]⟩

/-- C5 witness: concrete instance of `claim_single_transfer`. -/
theorem claim_single_transfer_witness :
    (⟨⟨"owner.testnet", "token.testnet", []⟩,
      [⟨"token.testnet", "ft_transfer", "user3.testnet", 7, 1, 50000000000000⟩],
      []⟩ : ExecResult).calls =
      [⟨"token.testnet", "ft_transfer", "user3.testnet", 7, 1, 50000000000000⟩] :=
  (claim_single_transfer
    ⟨"owner.testnet", "token.testnet", [("user3.testnet", 7)]⟩ ⟨"user3.testnet", 0⟩
    ⟨⟨"owner.testnet", "token.testnet", []⟩,
     [⟨"token.testnet", "ft_transfer", "user3.testnet", 7, 1, 50000000000000⟩],
     []⟩ rfl).1

/-- C6 counterexample: `claim_airdrop` — a mutating, value-moving entry
point — succeeds with zero attached deposit; no anti-replay collateral is
required and nothing is rejected for lack of one. -/
theorem deposit_check_counterexample :
    claim_airdrop ⟨"owner.testnet", "token.testnet", [("user4.testnet", 9)]⟩
        ⟨"user4.testnet", 0⟩ =
      .ok ⟨⟨"owner.testnet", "token.testnet", []⟩,
           [⟨"token.testnet", "ft_transfer", "user4.testnet", 9, 1, 50000000000000⟩],
           []⟩ := rfl

/-- C6 (amended): no entry point of the contract reads or checks the
caller's attached deposit: every operation behaves identically for any
two attached-deposit values, so in particular nothing is rejected for a
missing collateral. -/
theorem deposit_never_checked (s : AirdropContract) (p : AccountId)
    (d d' : Nat) (recipients : List AccountId) (amounts : List Balance)
    (recipient : AccountId) (amount : Balance) (a : AccountId) :
    claim_airdrop s ⟨p, d⟩ = claim_airdrop s ⟨p, d'⟩ ∧
    add_airdrops s ⟨p, d⟩ recipients amounts = add_airdrops s ⟨p, d'⟩ recipients amounts ∧
    update_airdrop s ⟨p, d⟩ recipient amount = update_airdrop s ⟨p, d'⟩ recipient amount ∧
    check_airdrop s ⟨p, d⟩ a = check_airdrop s ⟨p, d'⟩ a ∧
    get_owner s ⟨p, d⟩ = get_owner s ⟨p, d'⟩ :=
  ⟨rfl, rfl, rfl, rfl, rfl⟩

/-- C7: every mutating administrative operation (`add_airdrops`,
`update_airdrop`) fails with its only-owner panic and leaves the state
unchanged when the caller is not the stored owner; when the caller is the
owner, the authorization check passes (the call never fails with an
only-owner panic). -/
theorem admin_requires_owner (s : AirdropContract) (ctx : Ctx)
    (recipients : List AccountId) (amounts : List Balance)
    (recipient : AccountId) (amount : Balance) :
    (ctx.predecessor_account_id ≠ s.owner_id →
      add_airdrops s ctx recipients amounts = .error .onlyOwnerAdd ∧
      update_airdrop s ctx recipient amount = .error .onlyOwnerUpdate ∧
      finalState s (add_airdrops s ctx recipients amounts) = s ∧
      finalState s (update_airdrop s ctx recipient amount) = s) ∧
    (ctx.predecessor_account_id = s.owner_id →
      add_airdrops s ctx recipients amounts ≠ .error .onlyOwnerAdd ∧
      update_airdrop s ctx recipient amount ≠ .error .onlyOwnerUpdate) := by
  constructor
  · intro h
    have h' : ¬ s.owner_id = ctx.predecessor_account_id := fun he => h he.symm
    have ha : add_airdrops s ctx recipients amounts = .error .onlyOwnerAdd := by
      simp [add_airdrops, h']
    have hu : update_airdrop s ctx recipient amount = .error .onlyOwnerUpdate := by
      simp [update_airdrop, h']
    exact ⟨ha, hu, by rw [ha]; rfl, by rw [hu]; rfl⟩
  · intro h
    have h' : s.owner_id = ctx.predecessor_account_id := h.symm
    constructor
    · simp only [add_airdrops, if_pos h']
      split <;> simp
    · simp only [update_airdrop, if_pos h']
      split <;> simp

/-- C7 witness: a non-owner caller is rejected by both administrative
operations; the owner passes the authorization check. -/
theorem admin_requires_owner_witness :
    add_airdrops ⟨"owner.testnet", "token.testnet", []⟩ ⟨"mallory.testnet", 0⟩
      ["user1.testnet"] [5] = .error .onlyOwnerAdd ∧
    update_airdrop ⟨"owner.testnet", "token.testnet", []⟩ ⟨"mallory.testnet", 0⟩
      "user1.testnet" 5 = .error .onlyOwnerUpdate ∧
    add_airdrops ⟨"owner.testnet", "token.testnet", []⟩ ⟨"owner.testnet", 0⟩
      ["user1.testnet"] [5] ≠ .error .onlyOwnerAdd := by
  have H1 := admin_requires_owner ⟨"owner.testnet", "token.testnet", []⟩
    ⟨"mallory.testnet", 0⟩ ["user1.testnet"] [5] "user1.testnet" 5
  have H2 := admin_requires_owner ⟨"owner.testnet", "token.testnet", []⟩
    ⟨"owner.testnet", 0⟩ ["user1.testnet"] [5] "user1.testnet" 5
  exact ⟨(H1.1 (by decide)).1, (H1.1 (by decide)).2.1, (H2.2 rfl).1⟩

/-- C8: the read accessors are pure.  `check_airdrop` returns exactly the
looked-up amount (default 0) and `get_owner` the stored owner; both
persist the unchanged state, issue no external call, always succeed, and
their results do not depend on who calls them or on any other context
field. -/
theorem views_pure (s : AirdropContract) (ctx ctx' : Ctx) (a : AccountId) :
    check_airdrop s ctx a = ((mapGet s.airdrops a).getD 0, ⟨s, [], []⟩) ∧
    get_owner s ctx = (s.owner_id, ⟨s, [], []⟩) ∧
    check_airdrop s ctx a = check_airdrop s ctx' a ∧
    get_owner s ctx = get_owner s ctx' :=
  ⟨rfl, rfl, rfl, rfl⟩

/-- The amount paired with the first occurrence of an account in the
enumerated input; spec-side definition used to state C9. -/
def firstAmount (pairs : List (AccountId × Balance)) (a : AccountId) :
    Option Balance :=
  match pairs with
  | [] => none
  | p :: rest => if p.1 = a then some p.2 else firstAmount rest a

/-- The add loop never changes an account that is already present. -/
theorem addLoop_mem_preserved :
    ∀ (ps : List (AccountId × Balance)) (m : AirMap) (a : AccountId),
      (mapGet m a).isSome → mapGet (addLoop m ps) a = mapGet m a := by
  intro ps
  induction ps with
  | nil => intro m a _; rfl
  | cons p rest ih =>
    intro m a hsome
    obtain ⟨r, v⟩ := p
    by_cases hr : (mapGet m r).isSome
    · simp only [addLoop, if_pos hr]
      exact ih m a hsome
    · simp only [addLoop, if_neg hr]
      have hra : a ≠ r := by
        intro he
        rw [he] at hsome
        exact hr hsome
      have hins : mapGet (mapInsert m r v) a = mapGet m a :=
        mapGet_insert_ne m v hra
      rw [ih (mapInsert m r v) a (by rw [hins]; exact hsome), hins]

/-- The add loop gives an absent account the amount of its first
occurrence in the input (and leaves it absent if it never occurs). -/
theorem addLoop_new :
    ∀ (ps : List (AccountId × Balance)) (m : AirMap) (a : AccountId),
      mapGet m a = none → mapGet (addLoop m ps) a = firstAmount ps a := by
  intro ps
  induction ps with
  | nil => intro m a h; exact h
  | cons p rest ih =>
    intro m a hnone
    obtain ⟨r, v⟩ := p
    by_cases hr : (mapGet m r).isSome
    · have hra : ¬ r = a := by
        intro he
        rw [he, hnone] at hr
        exact Bool.noConfusion hr
      simp only [addLoop, if_pos hr, firstAmount, if_neg hra]
      exact ih m a hnone
    · simp only [addLoop, if_neg hr]
      by_cases hra : r = a
      · subst hra
        have hsome : (mapGet (mapInsert m r v) r).isSome := by
          rw [mapGet_insert_self]
          rfl
        rw [addLoop_mem_preserved rest _ r hsome, mapGet_insert_self]
        simp [firstAmount]
      · have hins : mapGet (mapInsert m r v) a = mapGet m a :=
          mapGet_insert_ne m v fun he => hra he.symm
        simp only [firstAmount, if_neg hra]
        exact (ih (mapInsert m r v) a (by rw [hins]; exact hnone)).trans rfl

/-- C9: an owner's `add_airdrops` call (with matching list lengths) never
overwrites an existing entry — every previously present account keeps its
old amount — and every previously absent account ends with the amount
paired with its first occurrence in the input (and stays absent if it
does not occur).  The call issues no external call and touches no other
state field. -/
theorem add_airdrops_no_overwrite (s : AirdropContract) (ctx : Ctx)
    (recipients : List AccountId) (amounts : List Balance)
    (howner : ctx.predecessor_account_id = s.owner_id)
    (hlen : recipients.length = amounts.length) :
    ∃ r, add_airdrops s ctx recipients amounts = .ok r ∧
      r.state.owner_id = s.owner_id ∧
      r.state.token_contract = s.token_contract ∧
      r.calls = [] ∧
      (∀ a, (mapGet s.airdrops a).isSome →
        mapGet r.state.airdrops a = mapGet s.airdrops a) ∧
      (∀ a, mapGet s.airdrops a = none →
        mapGet r.state.airdrops a = firstAmount (recipients.zip amounts) a) := by
  have ho : s.owner_id = ctx.predecessor_account_id := howner.symm
  refine ⟨{ state := { s with airdrops := addLoop s.airdrops (recipients.zip amounts) },
            calls := [], callbacks := [] }, ?_, rfl, rfl, rfl, ?_, ?_⟩
  · simp [add_airdrops, ho, hlen]
  · intro a ha
    exact addLoop_mem_preserved _ _ _ ha
  · intro a ha
    exact addLoop_new _ _ _ ha

/-- C9 witness: re-adding user1 with a different amount leaves its old
amount in place, while the new account user2 gets its listed amount. -/
theorem add_airdrops_no_overwrite_witness :
    mapGet (finalState ⟨"owner.testnet", "token.testnet", [("user1.testnet", 100)]⟩
      (add_airdrops ⟨"owner.testnet", "token.testnet", [("user1.testnet", 100)]⟩
        ⟨"owner.testnet", 0⟩ ["user1.testnet", "user2.testnet"] [999, 200])).airdrops
      ("user1.testnet") = some 100 ∧
    mapGet (finalState ⟨"owner.testnet", "token.testnet", [("user1.testnet", 100)]⟩
      (add_airdrops ⟨"owner.testnet", "token.testnet", [("user1.testnet", 100)]⟩
        ⟨"owner.testnet", 0⟩ ["user1.testnet", "user2.testnet"] [999, 200])).airdrops
      ("user2.testnet") = some 200 := by
  obtain ⟨r, h1, -, -, -, h5, h6⟩ := add_airdrops_no_overwrite
    ⟨"owner.testnet", "token.testnet", [("user1.testnet", 100)]⟩ ⟨"owner.testnet", 0⟩
    ["user1.testnet", "user2.testnet"] [999, 200] rfl rfl
  rw [h1]
  constructor
  · have hx := h5 ("user1.testnet") (by decide)
    exact hx.trans (by decide)
  · have hx := h6 ("user2.testnet") (by decide)
    exact hx.trans (by decide)

/-- C10: an owner's `update_airdrop` of an absent recipient fails with the
not-in-list panic, the state is unchanged and no external call is issued
(update never inserts); for a present recipient the call succeeds, the
recipient's amount becomes exactly the given amount, every other account
is untouched, and no external call is issued. -/
theorem update_airdrop_existing_only (s : AirdropContract) (ctx : Ctx)
    (recipient : AccountId) (amount : Balance)
    (howner : ctx.predecessor_account_id = s.owner_id) :
    (mapGet s.airdrops recipient = none →
      update_airdrop s ctx recipient amount = .error .notInList ∧
      finalState s (update_airdrop s ctx recipient amount) = s ∧
      extCalls (update_airdrop s ctx recipient amount) = []) ∧
    ((mapGet s.airdrops recipient).isSome →
      ∃ r, update_airdrop s ctx recipient amount = .ok r ∧
        mapGet r.state.airdrops recipient = some amount ∧
        (∀ a, a ≠ recipient → mapGet r.state.airdrops a = mapGet s.airdrops a) ∧
        r.state.owner_id = s.owner_id ∧
        r.state.token_contract = s.token_contract ∧
        r.calls = []) := by
  have ho : s.owner_id = ctx.predecessor_account_id := howner.symm
  constructor
  · intro hnone
    have hs : ¬ (mapGet s.airdrops recipient).isSome = true := by
      rw [hnone]
      simp
    have herr : update_airdrop s ctx recipient amount = .error .notInList := by
      simp [update_airdrop, ho, hs]
    exact ⟨herr, by rw [herr]; rfl, by rw [herr]; rfl⟩
  · intro hsome
    refine ⟨{ state := { s with airdrops := mapInsert s.airdrops recipient amount },
              calls := [], callbacks := [] },
            ?_, mapGet_insert_self .., ?_, rfl, rfl, rfl⟩
    · simp [update_airdrop, ho, hsome]
    · intro a ha
      exact mapGet_insert_ne s.airdrops amount ha

/-- C10 witness: updating an absent account fails; updating a present one
sets exactly the new amount. -/
theorem update_airdrop_existing_only_witness :
    update_airdrop ⟨"owner.testnet", "token.testnet", [("user1.testnet", 100)]⟩
      ⟨"owner.testnet", 4⟩ "user7.testnet" 55 = .error .notInList ∧
    mapGet (finalState ⟨"owner.testnet", "token.testnet", [("user1.testnet", 100)]⟩
      (update_airdrop ⟨"owner.testnet", "token.testnet", [("user1.testnet", 100)]⟩
        ⟨"owner.testnet", 4⟩ ("user1.testnet") 150)).airdrops ("user1.testnet") =
      some 150 := by
  have H1 := update_airdrop_existing_only
    ⟨"owner.testnet", "token.testnet", [("user1.testnet", 100)]⟩ ⟨"owner.testnet", 4⟩
    "user7.testnet" 55 rfl
  have H2 := update_airdrop_existing_only
    ⟨"owner.testnet", "token.testnet", [("user1.testnet", 100)]⟩ ⟨"owner.testnet", 4⟩
    "user1.testnet" 150 rfl
  refine ⟨(H1.1 (by decide)).1, ?_⟩
  obtain ⟨r, h1, h2, -⟩ := H2.2 (by decide)
  rw [h1]
  exact h2

/-! ### Eligibility Verifier (spec §4.1)

The Merkle verifier is not part of the sources under `src/`; it is
modelled from the spec below, with the hash function abstract. -/

/-- One byte of a hash value. -/
abbrev Byte := Fin 256

/-- A raw byte sequence (hash values, leaf inputs, proof elements). -/
abbrev Bytes := List Byte

/-- Modelled from the spec: the missing verifier compares two hashes "as
raw byte sequences lexicographically"; `lexLe h s` is that comparison. -/
def lexLe : Bytes → Bytes → Bool
  | [], _ => true
  | _ :: _, [] => false
  | a :: as, b :: bs => if a < b then true else if b < a then false else lexLe as bs

/-- Modelled from the spec: the order-independent pairing
`min(h,s) ++ max(h,s)` of the missing verifier. -/
def sortedPair (h s : Bytes) : Bytes :=
  if lexLe h s then h ++ s else s ++ h

/-- Modelled from the spec: the missing verifier's fold — "for each
sibling `s` in `proof`, in the given order, compute the next `h` as
`hash(min(h,s) ++ max(h,s))`". -/
def merkleFold (hash : Bytes → Bytes) (h : Bytes) : List Bytes → Bytes
  | [] => h
  | s :: rest => merkleFold hash (hash (sortedPair h s)) rest

/-- Lowercase hex digit of a value below 16. -/
def hexDigit (k : Nat) : Char :=
  if k < 10 then Char.ofNat (48 + k) else Char.ofNat (87 + k)

/-- Two lowercase hex digits per byte, in order. -/
def hexChars : Bytes → List Char
  | [] => []
  | b :: rest => hexDigit (b.1 / 16) :: hexDigit (b.1 % 16) :: hexChars rest

/-- Modelled from the spec: the "canonical hex encoding" of a hash that
the missing verifier compares against the committed root. -/
def hexEncode (bs : Bytes) : String :=
  String.mk (hexChars bs)

/-- Modelled from the spec: the missing verifier
`verify(leaf_input, root, proof)` — hash the leaf input, fold the
siblings with sorted-pair hashing, and succeed iff the final hash's
canonical hex encoding equals the committed root (case-sensitive string
equality). -/
def verify (hash : Bytes → Bytes) (leaf_input : Bytes) (root : String)
    (proof : List Bytes) : Bool :=
  hexEncode (merkleFold hash (hash leaf_input) proof) == root

/-- A Merkle tree over leaf byte-strings, used to state that a correct
sibling path is accepted. -/
inductive MTree where
  | leaf (data : Bytes)
  | node (l r : MTree)

/-- Root hash of a tree under sorted-pair hashing. -/
def rootHash (hash : Bytes → Bytes) : MTree → Bytes
  | .leaf d => hash d
  | .node l r => hash (sortedPair (rootHash hash l) (rootHash hash r))

/-- The leaf reached by a top-down path (`false` = left, `true` = right). -/
def leafAt : MTree → List Bool → Option Bytes
  | .leaf d, [] => some d
  | .node l r, b :: p => leafAt (if b then r else l) p
  | _, _ => none

/-- The sibling hashes seen while descending a path, top-down. -/
def siblingsDown (hash : Bytes → Bytes) : MTree → List Bool → List Bytes
  | .node l r, b :: p =>
    rootHash hash (if b then l else r) :: siblingsDown hash (if b then r else l) p
  | _, _ => []

/-- The correct sibling path for a leaf: bottom-up, as `verify` consumes
it. -/
def proofFor (hash : Bytes → Bytes) (t : MTree) (p : List Bool) : List Bytes :=
  (siblingsDown hash t p).reverse

/-- The inputs fed to the hash during a fold (one per sibling). -/
def foldInputs (hash : Bytes → Bytes) (h : Bytes) : List Bytes → List Bytes
  | [] => []
  | s :: rest => sortedPair h s :: foldInputs hash (hash (sortedPair h s)) rest

/-- `hash` is collision-free on the byte-strings in `L`.  A fixed-length
hash cannot be globally injective, so tamper-detection is stated relative
to collision-freeness on the finitely many inputs the two folds feed to
the hash. -/
abbrev HashInjOn (hash : Bytes → Bytes) (L : List Bytes) : Prop :=
  ∀ x ∈ L, ∀ y ∈ L, hash x = hash y → x = y

theorem lexLe_total : ∀ a b : Bytes, lexLe a b = false → lexLe b a = true := by
  intro a
  induction a with
  | nil => intro b h; cases h
  | cons x as ih =>
    intro b h
    cases b with
    | nil => rfl
    | cons y bs =>
      simp only [lexLe] at h ⊢
      by_cases hxy : x < y
      · rw [if_pos hxy] at h
        cases h
      · rw [if_neg hxy] at h
        by_cases hyx : y < x
        · rw [if_pos hyx]
        · rw [if_neg hyx] at h
          rw [if_neg hyx, if_neg hxy]
          exact ih bs h

theorem lexLe_antisymm : ∀ a b : Bytes, lexLe a b = true → lexLe b a = true → a = b := by
  intro a
  induction a with
  | nil =>
    intro b _ h2
    cases b with
    | nil => rfl
    | cons y bs => cases h2
  | cons x as ih =>
    intro b h1 h2
    cases b with
    | nil => cases h1
    | cons y bs =>
      simp only [lexLe] at h1 h2
      by_cases hxy : x < y
      · rw [if_neg (asymm hxy), if_pos hxy] at h2
        cases h2
      · rw [if_neg hxy] at h1
        by_cases hyx : y < x
        · rw [if_pos hyx] at h1
          cases h1
        · rw [if_neg hyx] at h1
          rw [if_neg hyx, if_neg hxy] at h2
          have hx : x = y := le_antisymm (not_lt.mp hyx) (not_lt.mp hxy)
          rw [hx, ih bs h1 h2]

theorem sortedPair_comm (a b : Bytes) : sortedPair a b = sortedPair b a := by
  unfold sortedPair
  by_cases h1 : lexLe a b = true
  · by_cases h2 : lexLe b a = true
    · rw [lexLe_antisymm a b h1 h2]
    · rw [if_pos h1, if_neg h2]
  · have h2 := lexLe_total a b (Bool.not_eq_true _ ▸ h1)
    rw [if_neg h1, if_pos h2]

theorem merkleFold_append (hash : Bytes → Bytes) :
    ∀ (xs ys : List Bytes) (h : Bytes),
      merkleFold hash h (xs ++ ys) = merkleFold hash (merkleFold hash h xs) ys := by
  intro xs
  induction xs with
  | nil => intro ys h; rfl
  | cons s rest ih =>
    intro ys h
    simp only [List.cons_append, merkleFold]
    exact ih ys (hash (sortedPair h s))

theorem foldInputs_append (hash : Bytes → Bytes) :
    ∀ (xs ys : List Bytes) (h : Bytes),
      foldInputs hash h (xs ++ ys) =
        foldInputs hash h xs ++ foldInputs hash (merkleFold hash h xs) ys := by
  intro xs
  induction xs with
  | nil => intro ys h; rfl
  | cons s rest ih =>
    intro ys h
    simp only [List.cons_append, foldInputs, merkleFold]
    exact congrArg (sortedPair h s :: ·) (ih ys (hash (sortedPair h s)))

theorem merkleFold_length (hash : Bytes → Bytes) (n : Nat)
    (Hlen : ∀ x, (hash x).length = n) :
    ∀ (proof : List Bytes) (h : Bytes), h.length = n →
      (merkleFold hash h proof).length = n := by
  intro proof
  induction proof with
  | nil => intro h hl; exact hl
  | cons s rest ih => intro h hl; exact ih _ (Hlen _)

/-- For fixed-length inputs, a sorted-pair concatenation determines the
unordered pair of its halves. -/
theorem sortedPair_inj (n : Nat) (a b c d : Bytes)
    (ha : a.length = n) (hb : b.length = n) (hc : c.length = n)
    (hd : d.length = n) (h : sortedPair a b = sortedPair c d) :
    (a = c ∧ b = d) ∨ (a = d ∧ b = c) := by
  unfold sortedPair at h
  by_cases h1 : lexLe a b = true
  · rw [if_pos h1] at h
    by_cases h2 : lexLe c d = true
    · rw [if_pos h2] at h
      exact Or.inl (List.append_inj h (ha.trans hc.symm))
    · rw [if_neg h2] at h
      exact Or.inr (List.append_inj h (ha.trans hd.symm))
  · rw [if_neg h1] at h
    by_cases h2 : lexLe c d = true
    · rw [if_pos h2] at h
      obtain ⟨e1, e2⟩ := List.append_inj h (hb.trans hc.symm)
      exact Or.inr ⟨e2, e1⟩
    · rw [if_neg h2] at h
      obtain ⟨e1, e2⟩ := List.append_inj h (hb.trans hd.symm)
      exact Or.inl ⟨e2, e1⟩

/-- Folding the same siblings onto two different length-`n` accumulators
keeps the results different, provided the hash is collision-free on the
inputs both folds feed it. -/
theorem merkleFold_ne (hash : Bytes → Bytes) (n : Nat)
    (Hlen : ∀ x, (hash x).length = n) :
    ∀ (proof : List Bytes) (h h' : Bytes), h ≠ h' →
      h.length = n → h'.length = n → (∀ x ∈ proof, x.length = n) →
      HashInjOn hash (foldInputs hash h proof ++ foldInputs hash h' proof) →
      merkleFold hash h proof ≠ merkleFold hash h' proof := by
  intro proof
  induction proof with
  | nil => intro h h' hne _ _ _ _; exact hne
  | cons s rest ih =>
    intro h h' hne hlh hlh' hlp hinj
    have hls : s.length = n := hlp s (List.mem_cons_self ..)
    have hAB : hash (sortedPair h s) ≠ hash (sortedPair h' s) := by
      intro he
      have hmem1 : sortedPair h s ∈
          foldInputs hash h (s :: rest) ++ foldInputs hash h' (s :: rest) := by
        simp [foldInputs]
      have hmem2 : sortedPair h' s ∈
          foldInputs hash h (s :: rest) ++ foldInputs hash h' (s :: rest) := by
        simp [foldInputs]
      rcases sortedPair_inj n h s h' s hlh hls hlh' hls
          (hinj _ hmem1 _ hmem2 he) with ⟨e1, -⟩ | ⟨e1, e2⟩
      · exact hne e1
      · exact hne (e1.trans e2)
    simp only [merkleFold]
    refine ih (hash (sortedPair h s)) (hash (sortedPair h' s)) hAB (Hlen _) (Hlen _)
      (fun x hx => hlp x (List.mem_cons_of_mem _ hx)) ?_
    intro x hx y hy hxy
    refine hinj x ?_ y ?_ hxy
    · simp only [foldInputs, List.mem_append, List.mem_cons] at hx ⊢
      tauto
    · simp only [foldInputs, List.mem_append, List.mem_cons] at hy ⊢
      tauto

/-- Tampering with one sibling of a proof changes the folded hash,
provided the hash is collision-free on the inputs the two folds feed it. -/
theorem merkleFold_sibling_tamper (hash : Bytes → Bytes) (n : Nat)
    (Hlen : ∀ x, (hash x).length = n) (leaf : Bytes)
    (pre post : List Bytes) (s s' : Bytes)
    (hne : s' ≠ s) (hs : s.length = n) (hs' : s'.length = n)
    (hpost : ∀ x ∈ post, x.length = n)
    (hinj : HashInjOn hash (foldInputs hash (hash leaf) (pre ++ s :: post) ++
                            foldInputs hash (hash leaf) (pre ++ s' :: post))) :
    merkleFold hash (hash leaf) (pre ++ s :: post) ≠
      merkleFold hash (hash leaf) (pre ++ s' :: post) := by
  have hI : (merkleFold hash (hash leaf) pre).length = n :=
    merkleFold_length hash n Hlen pre (hash leaf) (Hlen leaf)
  rw [foldInputs_append, foldInputs_append] at hinj
  rw [merkleFold_append, merkleFold_append]
  set hm := merkleFold hash (hash leaf) pre with hhm
  have hAB : hash (sortedPair hm s) ≠ hash (sortedPair hm s') := by
    intro he
    have hmem1 : sortedPair hm s ∈
        (foldInputs hash (hash leaf) pre ++ foldInputs hash hm (s :: post)) ++
        (foldInputs hash (hash leaf) pre ++ foldInputs hash hm (s' :: post)) := by
      simp [foldInputs]
    have hmem2 : sortedPair hm s' ∈
        (foldInputs hash (hash leaf) pre ++ foldInputs hash hm (s :: post)) ++
        (foldInputs hash (hash leaf) pre ++ foldInputs hash hm (s' :: post)) := by
      simp [foldInputs]
    rcases sortedPair_inj n hm s hm s' hI hs hI hs'
        (hinj _ hmem1 _ hmem2 he) with ⟨-, e2⟩ | ⟨e1, e2⟩
    · exact hne e2.symm
    · exact hne (e1.symm.trans e2.symm)
  simp only [merkleFold]
  refine merkleFold_ne hash n Hlen post _ _ hAB (Hlen _) (Hlen _) hpost ?_
  intro x hx y hy hxy
  refine hinj x ?_ y ?_ hxy
  · simp only [foldInputs, List.mem_append, List.mem_cons] at hx ⊢
    tauto
  · simp only [foldInputs, List.mem_append, List.mem_cons] at hy ⊢
    tauto

/-- Tampering with the leaf input changes the folded hash, provided the
hash is collision-free on the two leaves and the fold inputs. -/
theorem merkleFold_leaf_tamper (hash : Bytes → Bytes) (n : Nat)
    (Hlen : ∀ x, (hash x).length = n) (leaf leaf' : Bytes)
    (proof : List Bytes) (hne : leaf' ≠ leaf)
    (hp : ∀ x ∈ proof, x.length = n)
    (hinj : HashInjOn hash ((leaf :: foldInputs hash (hash leaf) proof) ++
                            (leaf' :: foldInputs hash (hash leaf') proof))) :
    merkleFold hash (hash leaf) proof ≠ merkleFold hash (hash leaf') proof := by
  have h0 : hash leaf ≠ hash leaf' := by
    intro he
    exact hne (hinj leaf (by simp) leaf' (by simp) he).symm
  refine merkleFold_ne hash n Hlen proof _ _ h0 (Hlen _) (Hlen _) hp ?_
  intro x hx y hy hxy
  refine hinj x ?_ y ?_ hxy
  · simp only [List.mem_append, List.mem_cons] at hx ⊢
    tauto
  · simp only [List.mem_append, List.mem_cons] at hy ⊢
    tauto

theorem hexDigit_inj :
    ∀ a, a < 16 → ∀ b, b < 16 → hexDigit a = hexDigit b → a = b := by
  decide

theorem hexChars_inj : ∀ xs ys : Bytes, hexChars xs = hexChars ys → xs = ys := by
  intro xs
  induction xs with
  | nil =>
    intro ys h
    cases ys with
    | nil => rfl
    | cons y ys => cases h
  | cons x xs ih =>
    intro ys h
    cases ys with
    | nil => cases h
    | cons y ys =>
      simp only [hexChars, List.cons.injEq] at h
      obtain ⟨h1, h2, h3⟩ := h
      have hx : x.1 < 256 := x.isLt
      have hy : y.1 < 256 := y.isLt
      have e1 : x.1 / 16 = y.1 / 16 :=
        hexDigit_inj _ (by omega) _ (by omega) h1
      have e2 : x.1 % 16 = y.1 % 16 :=
        hexDigit_inj _ (by omega) _ (by omega) h2
      have exy : x = y := Fin.ext (by omega)
      rw [exy, ih ys h3]

theorem hexEncode_inj {xs ys : Bytes} (h : hexEncode xs = hexEncode ys) :
    xs = ys :=
  hexChars_inj xs ys (congrArg String.data h)

/-- `verify` accepts the correct sibling path of any leaf of any tree. -/
theorem merkleFold_proofFor (hash : Bytes → Bytes) :
    ∀ (p : List Bool) (t : MTree) (d : Bytes), leafAt t p = some d →
      merkleFold hash (hash d) (proofFor hash t p) = rootHash hash t := by
  intro p
  induction p with
  | nil =>
    intro t d h
    cases t with
    | leaf d' =>
      simp only [leafAt, Option.some.injEq] at h
      rw [← h]
      rfl
    | node l r => cases h
  | cons b rest ih =>
    intro t d h
    cases t with
    | leaf d' => cases h
    | node l r =>
      cases b with
      | false =>
        have hchild : leafAt l rest = some d := h
        have hsplit : proofFor hash (.node l r) (false :: rest) =
            proofFor hash l rest ++ [rootHash hash r] := by
          simp [proofFor, siblingsDown]
        rw [hsplit, merkleFold_append, ih l d hchild]
        rfl
      | true =>
        have hchild : leafAt r rest = some d := h
        have hsplit : proofFor hash (.node l r) (true :: rest) =
            proofFor hash r rest ++ [rootHash hash l] := by
          simp [proofFor, siblingsDown]
        rw [hsplit, merkleFold_append, ih r d hchild]
        simp only [merkleFold]
        rw [sortedPair_comm]
        rfl

/-- C4: the spec-modelled eligibility verifier is correct.  With `hash`
abstract but of fixed output length `n`:
(1) `verify` computes `h = hash(leaf_input)`, folds each sibling in order
with `hash(min(h,s) ++ max(h,s))` (lexicographic byte order), and returns
true iff the final hash's canonical hex encoding equals the committed
root under case-sensitive string equality;
(2) a valid leaf with a correct sibling path is accepted, for every tree
and every leaf position;
(3) replacing any one sibling by a different same-length value (in
particular, flipping any single bit of it) makes `verify` return false,
and (4) likewise for any change of the leaf input — (3) and (4) relative
to the hash being collision-free on the inputs the two folds feed it,
since a fixed-length hash admits collisions globally. -/
theorem verify_correct (hash : Bytes → Bytes) (n : Nat)
    (Hlen : ∀ x, (hash x).length = n) :
    (∀ (leaf : Bytes) (root : String) (proof : List Bytes),
      verify hash leaf root proof = true ↔
        hexEncode (merkleFold hash (hash leaf) proof) = root) ∧
    (∀ (t : MTree) (p : List Bool) (d : Bytes), leafAt t p = some d →
      verify hash d (hexEncode (rootHash hash t)) (proofFor hash t p) = true) ∧
    (∀ (leaf : Bytes) (root : String) (pre post : List Bytes) (s s' : Bytes),
      verify hash leaf root (pre ++ s :: post) = true →
      s' ≠ s → s.length = n → s'.length = n →
      (∀ x ∈ post, x.length = n) →
      HashInjOn hash (foldInputs hash (hash leaf) (pre ++ s :: post) ++
                      foldInputs hash (hash leaf) (pre ++ s' :: post)) →
      verify hash leaf root (pre ++ s' :: post) = false) ∧
    (∀ (leaf leaf' : Bytes) (root : String) (proof : List Bytes),
      verify hash leaf root proof = true →
      leaf' ≠ leaf → (∀ x ∈ proof, x.length = n) →
      HashInjOn hash ((leaf :: foldInputs hash (hash leaf) proof) ++
                      (leaf' :: foldInputs hash (hash leaf') proof)) →
      verify hash leaf' root proof = false) := by
  have hiff : ∀ (leaf : Bytes) (root : String) (proof : List Bytes),
      verify hash leaf root proof = true ↔
        hexEncode (merkleFold hash (hash leaf) proof) = root := by
    intro leaf root proof
    unfold verify
    exact beq_iff_eq
  refine ⟨hiff, ?_, ?_, ?_⟩
  · intro t p d h
    rw [hiff, merkleFold_proofFor hash p t d h]
  · intro leaf root pre post s s' hver hne hs hs' hpost hinj
    rw [hiff] at hver
    rcases Bool.eq_false_or_eq_true
        (verify hash leaf root (pre ++ s' :: post)) with hv | hv
    · exfalso
      rw [hiff] at hv
      exact merkleFold_sibling_tamper hash n Hlen leaf pre post s s'
        hne hs hs' hpost hinj (hexEncode_inj (hver.trans hv.symm))
    · exact hv
  · intro leaf leaf' root proof hver hne hp hinj
    rw [hiff] at hver
    rcases Bool.eq_false_or_eq_true (verify hash leaf' root proof) with hv | hv
    · exfalso
      rw [hiff] at hv
      exact merkleFold_leaf_tamper hash n Hlen leaf leaf' proof hne hp hinj
        (hexEncode_inj (hver.trans hv.symm))
    · exact hv

/-- A toy fixed-length hash (first byte, or 0) used to instantiate the
verifier theorem on concrete inputs. -/
def toyHash : Bytes → Bytes
  | [] => [0]
  | b :: _ => [b]

theorem toyHash_len : ∀ x : Bytes, (toyHash x).length = 1 := by
  intro x
  cases x <;> rfl

/-- C4 witness: with the toy hash, a correct one-sibling proof verifies
against its own root; replacing the sibling `[3]` by `[4]` makes `verify`
return false; and the correct path to the left leaf of a two-leaf tree is
accepted. -/
theorem verify_correct_witness :
    verify toyHash [5]
      (hexEncode (merkleFold toyHash (toyHash [5]) [[3]])) [[3]] = true ∧
    verify toyHash [5]
      (hexEncode (merkleFold toyHash (toyHash [5]) [[3]])) [[4]] = false ∧
    verify toyHash [5]
      (hexEncode (rootHash toyHash (.node (.leaf [5]) (.leaf [9]))))
      (proofFor toyHash (.node (.leaf [5]) (.leaf [9])) [false]) = true := by
  have H := verify_correct toyHash 1 toyHash_len
  refine ⟨(H.1 [5] _ [[3]]).mpr rfl, ?_, ?_⟩
  · have hver : verify toyHash [5]
        (hexEncode (merkleFold toyHash (toyHash [5]) [[3]])) ([] ++ [3] :: []) = true :=
      (H.1 [5] _ _).mpr rfl
    exact H.2.2.1 [5] _ [] [] [3] [4] hver (by decide) (by decide) (by decide)
      (by simp) (by decide)
  · exact H.2.1 (.node (.leaf [5]) (.leaf [9])) [false] [5] rfl

end Airdrop
